import Mathlib

/-!
Shallow embedding of the two concurrency primitives of the rustudy repository:
the memoizing cache `Cache` (src/hello_server/cache.rs) and the worker thread
pool `ThreadPool` (src/hello_server/thread_pool.rs).

Both components are modelled as transition systems whose atomic steps are the
lock-protected critical sections of the Rust code.  In `cache.rs` every access
to the two hash maps happens under the `inner` mutex (the `called_map` mutex is
only ever taken while `inner` is held), so the interleaving points of a call to
`get_or_insert_with` are exactly: the initial entry check together with the
claim check-and-set, each iteration of the loser spin loop, the run of the
closure `f` outside all locks, and the final publish.  In `thread_pool.rs` the
shared state is the crossbeam channel, the `job_count` mutex and the per-worker
loop, giving the steps below.
-/

namespace Rustudy

/-- Case split for reading an index of a list after `set`. -/
theorem getElem?_set_cases {α : Type} {l : List α} {i m : Nat} {a t : α}
    (h : (l.set i a)[m]? = some t) : (m = i ∧ t = a) ∨ (m ≠ i ∧ l[m]? = some t) := by
  by_cases hmi : m = i
  · subst hmi
    rw [List.getElem?_set] at h
    simp only [if_pos rfl] at h
    by_cases hlt : m < l.length
    · rw [if_pos hlt] at h
      exact Or.inl ⟨rfl, (Option.some_inj.mp h).symm⟩
    · rw [if_neg hlt] at h
      exact absurd h (by simp)
  · right
    refine ⟨hmi, ?_⟩
    rwa [List.getElem?_set_ne (fun he => hmi he.symm)] at h

namespace MemoCache

/-- Program counter of one thread inside `Cache::get_or_insert_with`.
`start` is the state before the first `inner.lock()`; `spinning` is the loser
loop (`loop { lock inner; if contains_key { return } }`); `computing` is the
state right before `f(key.clone())` runs (claim already recorded in
`called_map`); `publishing v` is the state after `f` returned `v`, before the
final `inner.insert`; `done v` means the call returned `v`. -/
inductive PC (V : Type) where
  | start
  | spinning
  | computing
  | publishing (v : V)
  | done (v : V)
deriving DecidableEq, Repr

/-- Whether this program point holds the claim for its key with the closure
invocation not yet published (between winning the `called_map` check-and-set
and the `inner.insert`). -/
def PC.isLive {V : Type} : PC V → Bool
  | .computing => true
  | .publishing _ => true
  | _ => false

/-- One in-flight call to `get_or_insert_with`: its key, its closure `f`
(modelled as a pure function of the key, as in the source where `f` is run
outside all locks), and its program counter. -/
structure ThreadCall (K V : Type) where
  key : K
  f : K → V
  pc : PC V

/-- Global state of the cache together with the calling threads.
`inner` is the `Mutex<HashMap<K, Arc<V>>>` (content of the Arc), `called` is
the `Mutex<HashMap<K, bool>>` (`called_map`; the code only ever inserts
`true`, so presence is a boolean).  `invocations k` is a ghost counter of how
many times a closure has been invoked for `k`, and `fetched k` records the
value the invocation for `k` returned (ghost; set exactly when `f` runs). -/
structure CState (K V : Type) where
  inner : K → Option V
  called : K → Bool
  threads : List (ThreadCall K V)
  invocations : K → Nat
  fetched : K → Option V

/-- Pointwise map update, modelling `HashMap::insert`. -/
def mapInsert {K V : Type} [DecidableEq K] (m : K → Option V) (k : K) (v : V) :
    K → Option V :=
  fun x => if x = k then some v else m x

/-- Record a key in `called_map` (the code inserts `true`). -/
def calledInsert {K : Type} [DecidableEq K] (c : K → Bool) (k : K) : K → Bool :=
  fun x => if x = k then true else c x

/-- Bump a ghost counter at one key. -/
def bump {K : Type} [DecidableEq K] (c : K → Nat) (k : K) : K → Nat :=
  fun x => if x = k then c x + 1 else c x

theorem mapInsert_pos {K V : Type} [DecidableEq K] (m : K → Option V) (k x : K) (v : V)
    (h : x = k) : mapInsert m k v x = some v := by
  simp [mapInsert, h]

theorem mapInsert_neg {K V : Type} [DecidableEq K] (m : K → Option V) (k x : K) (v : V)
    (h : x ≠ k) : mapInsert m k v x = m x := by
  simp [mapInsert, h]

theorem calledInsert_pos {K : Type} [DecidableEq K] (c : K → Bool) (k x : K)
    (h : x = k) : calledInsert c k x = true := by
  simp [calledInsert, h]

theorem calledInsert_neg {K : Type} [DecidableEq K] (c : K → Bool) (k x : K)
    (h : x ≠ k) : calledInsert c k x = c x := by
  simp [calledInsert, h]

theorem bump_pos {K : Type} [DecidableEq K] (c : K → Nat) (k x : K)
    (h : x = k) : bump c k x = c x + 1 := by
  simp [bump, h]

theorem bump_neg {K : Type} [DecidableEq K] (c : K → Nat) (k x : K)
    (h : x ≠ k) : bump c k x = c x := by
  simp [bump, h]

variable {K V : Type}

/-- One atomic step of a single thread `t` against the shared maps, returning
the updated shared state and the updated thread.  Each branch is one
lock-protected region of `get_or_insert_with`:
at `start` the code locks `inner`, matches on `entry(key)` and, on the vacant
branch, locks `called_map` for the claim check-and-set, all before releasing;
at `spinning` one iteration of the loser loop locks `inner` and re-checks;
at `computing` the closure runs with no lock held;
at `publishing` the code re-locks `inner` and inserts the result. -/
def stepCall [DecidableEq K] (s : CState K V) (t : ThreadCall K V) :
    CState K V × ThreadCall K V :=
  match t.pc with
  | .start =>
    match s.inner t.key with
    | some v => (s, { t with pc := .done v })
    | none =>
      if s.called t.key then
        (s, { t with pc := .spinning })
      else
        ({ s with called := calledInsert s.called t.key }, { t with pc := .computing })
  | .spinning =>
    match s.inner t.key with
    | some v => (s, { t with pc := .done v })
    | none => (s, t)
  | .computing =>
    ({ s with
        invocations := bump s.invocations t.key,
        fetched := mapInsert s.fetched t.key (t.f t.key) },
      { t with pc := .publishing (t.f t.key) })
  | .publishing v =>
    ({ s with inner := mapInsert s.inner t.key v }, { t with pc := .done v })
  | .done v => (s, { t with pc := .done v })

/-- Run the atomic step of the thread at index `i` (identity when `i` is out
of range). -/
def stepAt [DecidableEq K] (s : CState K V) (i : Nat) : CState K V :=
  match s.threads[i]? with
  | none => s
  | some t =>
    let p := stepCall s t
    { p.1 with threads := s.threads.set i p.2 }

/-- Interleaving semantics: some thread performs its next atomic step. -/
def CacheStep [DecidableEq K] (s s2 : CState K V) : Prop :=
  ∃ i, s2 = stepAt s i

/-- Initial state for a family of calls: both maps empty (`Default` impl of
`Cache`), every thread at `start`, ghost fields zeroed. -/
def cacheInit (calls : List (K × (K → V))) : CState K V where
  inner := fun _ => none
  called := fun _ => false
  threads := calls.map fun c => ⟨c.1, c.2, .start⟩
  invocations := fun _ => 0
  fetched := fun _ => none

/-- States reachable from the initial state by interleaved atomic steps. -/
def CacheReach [DecidableEq K] (calls : List (K × (K → V))) (s : CState K V) : Prop :=
  Relation.ReflTransGen CacheStep (cacheInit calls) s

/-- Inductive invariant of the cache transition system, tying the two maps,
the ghost fields and the thread program counters together.  All thread-indexed
clauses are positional (via `getElem?`). -/
structure CacheInv [DecidableEq K] (s : CState K V) : Prop where
  fresh_key : ∀ k, s.called k = false →
    s.fetched k = none ∧ s.inner k = none ∧ s.invocations k = 0 ∧
      ∀ (m : Nat) (t : ThreadCall K V), s.threads[m]? = some t → t.key = k →
        t.pc.isLive = false
  unique_live : ∀ (m n : Nat) (tm tn : ThreadCall K V),
    s.threads[m]? = some tm → s.threads[n]? = some tn →
    tm.key = tn.key → tm.pc.isLive = true → tn.pc.isLive = true → m = n
  invocations_le_one : ∀ k, s.invocations k ≤ 1
  invocations_fetched : ∀ k, s.invocations k = 0 ↔ s.fetched k = none
  inner_fetched : ∀ k v, s.inner k = some v → s.fetched k = some v
  computing_state : ∀ (m : Nat) (t : ThreadCall K V), s.threads[m]? = some t →
    t.pc = .computing →
    s.called t.key = true ∧ s.fetched t.key = none ∧ s.inner t.key = none
  publishing_state : ∀ (m : Nat) (t : ThreadCall K V) (v : V), s.threads[m]? = some t →
    t.pc = .publishing v → s.fetched t.key = some v ∧ s.inner t.key = none
  done_state : ∀ (m : Nat) (t : ThreadCall K V) (v : V), s.threads[m]? = some t →
    t.pc = .done v → s.fetched t.key = some v

/-- The initial state satisfies the invariant. -/
theorem cacheInit_inv [DecidableEq K] (calls : List (K × (K → V))) :
    CacheInv (cacheInit calls) := by
  have hpc : ∀ (m : Nat) (t : ThreadCall K V),
      (cacheInit calls).threads[m]? = some t → t.pc = .start := by
    intro m t hm
    simp only [cacheInit, List.getElem?_map] at hm
    cases hc : calls[m]? with
    | none => rw [hc] at hm; exact absurd hm (by simp)
    | some c => rw [hc] at hm; cases hm.symm.trans rfl; rfl
  refine ⟨?_, ?_, ?_, ?_, ?_, ?_, ?_, ?_⟩
  · intro k _
    refine ⟨rfl, rfl, rfl, ?_⟩
    intro m t hm _
    rw [hpc m t hm]
    rfl
  · intro m n tm tn hm _ _ hlm _
    rw [hpc m tm hm] at hlm
    exact absurd hlm (by simp [PC.isLive])
  · intro k; exact Nat.zero_le 1
  · intro k; exact ⟨fun _ => rfl, fun _ => rfl⟩
  · intro k v hv; exact absurd hv (by simp [cacheInit])
  · intro m t hm ht
    rw [hpc m t hm] at ht
    exact absurd ht (by simp)
  · intro m t v hm ht
    rw [hpc m t hm] at ht
    exact absurd ht (by simp)
  · intro m t v hm ht
    rw [hpc m t hm] at ht
    exact absurd ht (by simp)

/-- Replacing the thread at `i` with a non-live thread (spinning, start, done)
whose done-value, if any, agrees with the ghost result, preserves the
invariant; the shared maps are untouched. -/
theorem cacheInv_threads_congr [DecidableEq K] {s : CState K V} (inv : CacheInv s)
    {i : Nat} {t : ThreadCall K V} (nt : ThreadCall K V)
    (hthread : s.threads[i]? = some t) (hlive : nt.pc.isLive = false)
    (hcomp : nt.pc ≠ .computing) (hpub : ∀ v, nt.pc ≠ .publishing v)
    (hdone : ∀ v, nt.pc = .done v → s.fetched nt.key = some v) :
    CacheInv { s with threads := s.threads.set i nt } := by
  refine ⟨?_, ?_, inv.invocations_le_one, inv.invocations_fetched, inv.inner_fetched,
    ?_, ?_, ?_⟩
  · intro k hk
    obtain ⟨h1, h2, h3, h4⟩ := inv.fresh_key k hk
    refine ⟨h1, h2, h3, ?_⟩
    intro m t2 hm hkey2
    rcases getElem?_set_cases hm with ⟨rfl, rfl⟩ | ⟨hne, hold⟩
    · exact hlive
    · exact h4 m t2 hold hkey2
  · intro m n tm tn hm hn hk hlm hln
    rcases getElem?_set_cases hm with ⟨rfl, rfl⟩ | ⟨hnem, holdm⟩
    · rw [hlive] at hlm
      exact absurd hlm (by simp)
    · rcases getElem?_set_cases hn with ⟨rfl, rfl⟩ | ⟨hnen, holdn⟩
      · rw [hlive] at hln
        exact absurd hln (by simp)
      · exact inv.unique_live m n tm tn holdm holdn hk hlm hln
  · intro m t2 hm hc
    rcases getElem?_set_cases hm with ⟨rfl, rfl⟩ | ⟨hne, hold⟩
    · exact absurd hc hcomp
    · exact inv.computing_state m t2 hold hc
  · intro m t2 v hm hp
    rcases getElem?_set_cases hm with ⟨rfl, rfl⟩ | ⟨hne, hold⟩
    · exact absurd hp (hpub v)
    · exact inv.publishing_state m t2 v hold hp
  · intro m t2 v hm hd
    rcases getElem?_set_cases hm with ⟨rfl, rfl⟩ | ⟨hne, hold⟩
    · exact hdone v hd
    · exact inv.done_state m t2 v hold hd

/-- Winning the claim (vacant entry, key absent from `called_map`, so the
caller records the key and proceeds to run `f`) preserves the invariant. -/
theorem cacheInv_claim [DecidableEq K] {s : CState K V} (inv : CacheInv s)
    {i : Nat} {t : ThreadCall K V} (hthread : s.threads[i]? = some t)
    (hin : s.inner t.key = none) (hcalled : s.called t.key = false) :
    CacheInv { s with called := calledInsert s.called t.key,
                      threads := s.threads.set i { t with pc := .computing } } := by
  obtain ⟨hfet, hinn, hinv0, hnl⟩ := inv.fresh_key t.key hcalled
  refine ⟨?_, ?_, inv.invocations_le_one, inv.invocations_fetched, inv.inner_fetched,
    ?_, ?_, ?_⟩
  · intro k2 hk2
    have hk2ne : k2 ≠ t.key := by
      intro he
      simp only [calledInsert] at hk2
      rw [if_pos he] at hk2
      exact absurd hk2 (by simp)
    simp only [calledInsert] at hk2
    rw [if_neg hk2ne] at hk2
    obtain ⟨a, b, c, d⟩ := inv.fresh_key k2 hk2
    refine ⟨a, b, c, ?_⟩
    intro m t2 hm hkey2
    rcases getElem?_set_cases hm with ⟨rfl, rfl⟩ | ⟨hne, hold⟩
    · exact absurd hkey2 hk2ne.symm
    · exact d m t2 hold hkey2
  · intro m n tm tn hm hn hk hlm hln
    rcases getElem?_set_cases hm with ⟨rfl, rfl⟩ | ⟨hnem, holdm⟩
    · rcases getElem?_set_cases hn with ⟨rfl, rfl⟩ | ⟨hnen, holdn⟩
      · rfl
      · exact absurd (hnl n tn holdn hk.symm) (by rw [hln]; simp)
    · rcases getElem?_set_cases hn with ⟨rfl, rfl⟩ | ⟨hnen, holdn⟩
      · exact absurd (hnl m tm holdm hk) (by rw [hlm]; simp)
      · exact inv.unique_live m n tm tn holdm holdn hk hlm hln
  · intro m t2 hm hc
    rcases getElem?_set_cases hm with ⟨rfl, rfl⟩ | ⟨hne, hold⟩
    · exact ⟨by simp [calledInsert], hfet, hinn⟩
    · obtain ⟨c1, c2, c3⟩ := inv.computing_state m t2 hold hc
      refine ⟨?_, c2, c3⟩
      by_cases hkk : t2.key = t.key
      · simp only [calledInsert]
        rw [if_pos hkk]
      · simp only [calledInsert]
        rw [if_neg hkk]
        exact c1
  · intro m t2 v hm hp
    rcases getElem?_set_cases hm with ⟨rfl, rfl⟩ | ⟨hne, hold⟩
    · exact absurd hp (by simp)
    · exact inv.publishing_state m t2 v hold hp
  · intro m t2 v hm hd
    rcases getElem?_set_cases hm with ⟨rfl, rfl⟩ | ⟨hne, hold⟩
    · exact absurd hd (by simp)
    · exact inv.done_state m t2 v hold hd

/-- Running the closure outside all locks (the `computing` → `publishing`
transition, which is the single invocation of `f` for this key) preserves the
invariant. -/
theorem cacheInv_invoke [DecidableEq K] {s : CState K V} (inv : CacheInv s)
    {i : Nat} {t : ThreadCall K V} (hthread : s.threads[i]? = some t)
    (hpc : t.pc = .computing) :
    CacheInv { s with
      invocations := bump s.invocations t.key,
      fetched := mapInsert s.fetched t.key (t.f t.key),
      threads := s.threads.set i { t with pc := .publishing (t.f t.key) } } := by
  obtain ⟨hcall, hfet, hinn⟩ := inv.computing_state i t hthread hpc
  have hlivet : t.pc.isLive = true := by rw [hpc]; rfl
  refine ⟨?_, ?_, ?_, ?_, ?_, ?_, ?_, ?_⟩
  · intro k2 hk2
    have hk2ne : k2 ≠ t.key := fun he => by rw [he, hcall] at hk2; exact absurd hk2 (by simp)
    obtain ⟨a, b, c, d⟩ := inv.fresh_key k2 hk2
    refine ⟨?_, b, ?_, ?_⟩
    · show mapInsert s.fetched t.key (t.f t.key) k2 = none
      rw [mapInsert_neg _ _ _ _ hk2ne]
      exact a
    · show bump s.invocations t.key k2 = 0
      rw [bump_neg _ _ _ hk2ne]
      exact c
    · intro m t2 hm hkey2
      rcases getElem?_set_cases hm with ⟨rfl, rfl⟩ | ⟨hne, hold⟩
      · exact absurd hkey2 hk2ne.symm
      · exact d m t2 hold hkey2
  · intro m n tm tn hm hn hk hlm hln
    rcases getElem?_set_cases hm with ⟨rfl, rfl⟩ | ⟨hnem, holdm⟩
    · rcases getElem?_set_cases hn with ⟨rfl, rfl⟩ | ⟨hnen, holdn⟩
      · rfl
      · exact absurd (inv.unique_live m n t tn hthread holdn hk hlivet hln) hnen.symm
    · rcases getElem?_set_cases hn with ⟨rfl, rfl⟩ | ⟨hnen, holdn⟩
      · exact inv.unique_live m n tm t holdm hthread hk hlm hlivet
      · exact inv.unique_live m n tm tn holdm holdn hk hlm hln
  · intro k2
    show bump s.invocations t.key k2 ≤ 1
    by_cases hkk : k2 = t.key
    · rw [bump_pos _ _ _ hkk, hkk, (inv.invocations_fetched t.key).mpr hfet]
    · rw [bump_neg _ _ _ hkk]
      exact inv.invocations_le_one k2
  · intro k2
    show bump s.invocations t.key k2 = 0 ↔ mapInsert s.fetched t.key (t.f t.key) k2 = none
    by_cases hkk : k2 = t.key
    · rw [bump_pos _ _ _ hkk, mapInsert_pos _ _ _ _ hkk]
      exact ⟨fun hc => absurd hc (Nat.succ_ne_zero _), fun hc => absurd hc (by simp)⟩
    · rw [bump_neg _ _ _ hkk, mapInsert_neg _ _ _ _ hkk]
      exact inv.invocations_fetched k2
  · intro k2 v2 hv2
    have hk2ne : k2 ≠ t.key := fun he => by rw [he, hinn] at hv2; exact absurd hv2 (by simp)
    show mapInsert s.fetched t.key (t.f t.key) k2 = some v2
    rw [mapInsert_neg _ _ _ _ hk2ne]
    exact inv.inner_fetched k2 v2 hv2
  · intro m t2 hm hc
    rcases getElem?_set_cases hm with ⟨rfl, rfl⟩ | ⟨hne, hold⟩
    · exact absurd hc (by simp)
    · obtain ⟨c1, c2, c3⟩ := inv.computing_state m t2 hold hc
      have hk2ne : t2.key ≠ t.key := by
        intro he
        have hlive2 : t2.pc.isLive = true := by rw [hc]; rfl
        exact hne (inv.unique_live m i t2 t hold hthread he hlive2 hlivet)
      refine ⟨c1, ?_, c3⟩
      show mapInsert s.fetched t.key (t.f t.key) t2.key = none
      rw [mapInsert_neg _ _ _ _ hk2ne]
      exact c2
  · intro m t2 v2 hm hp
    rcases getElem?_set_cases hm with ⟨rfl, rfl⟩ | ⟨hne, hold⟩
    · have hv2 : v2 = t.f t.key := by
        have hinj := hp
        simp only [PC.publishing.injEq] at hinj
        exact hinj.symm
      subst hv2
      refine ⟨?_, hinn⟩
      show mapInsert s.fetched t.key (t.f t.key) t.key = some (t.f t.key)
      rw [mapInsert_pos _ _ _ _ rfl]
    · obtain ⟨p1, p2⟩ := inv.publishing_state m t2 v2 hold hp
      have hk2ne : t2.key ≠ t.key := by
        intro he
        have hlive2 : t2.pc.isLive = true := by rw [hp]; rfl
        exact hne (inv.unique_live m i t2 t hold hthread he hlive2 hlivet)
      refine ⟨?_, p2⟩
      show mapInsert s.fetched t.key (t.f t.key) t2.key = some v2
      rw [mapInsert_neg _ _ _ _ hk2ne]
      exact p1
  · intro m t2 v2 hm hd
    rcases getElem?_set_cases hm with ⟨rfl, rfl⟩ | ⟨hne, hold⟩
    · exact absurd hd (by simp)
    · have hdold := inv.done_state m t2 v2 hold hd
      have hk2ne : t2.key ≠ t.key := by
        intro he
        rw [he, hfet] at hdold
        exact absurd hdold (by simp)
      show mapInsert s.fetched t.key (t.f t.key) t2.key = some v2
      rw [mapInsert_neg _ _ _ _ hk2ne]
      exact hdold

/-- Publishing the computed value (re-lock `inner`, `inner.insert(key, value)`,
return) preserves the invariant. -/
theorem cacheInv_publish [DecidableEq K] {s : CState K V} (inv : CacheInv s)
    {i : Nat} {t : ThreadCall K V} {v : V} (hthread : s.threads[i]? = some t)
    (hpc : t.pc = .publishing v) :
    CacheInv { s with inner := mapInsert s.inner t.key v,
                      threads := s.threads.set i { t with pc := .done v } } := by
  obtain ⟨hfet, hinn⟩ := inv.publishing_state i t v hthread hpc
  have hlivet : t.pc.isLive = true := by rw [hpc]; rfl
  refine ⟨?_, ?_, inv.invocations_le_one, inv.invocations_fetched, ?_, ?_, ?_, ?_⟩
  · intro k2 hk2
    have hk2ne : k2 ≠ t.key := by
      intro he
      obtain ⟨_, _, _, d⟩ := inv.fresh_key k2 hk2
      have := d i t hthread he.symm
      rw [hlivet] at this
      exact absurd this (by simp)
    obtain ⟨a, b, c, d⟩ := inv.fresh_key k2 hk2
    refine ⟨a, ?_, c, ?_⟩
    · simp only [mapInsert]
      rw [if_neg hk2ne]
      exact b
    · intro m t2 hm hkey2
      rcases getElem?_set_cases hm with ⟨rfl, rfl⟩ | ⟨hne, hold⟩
      · rfl
      · exact d m t2 hold hkey2
  · intro m n tm tn hm hn hk hlm hln
    rcases getElem?_set_cases hm with ⟨rfl, rfl⟩ | ⟨hnem, holdm⟩
    · exact absurd hlm (by simp [PC.isLive])
    · rcases getElem?_set_cases hn with ⟨rfl, rfl⟩ | ⟨hnen, holdn⟩
      · exact absurd hln (by simp [PC.isLive])
      · exact inv.unique_live m n tm tn holdm holdn hk hlm hln
  · intro k2 v2 hv2
    have hv2b : mapInsert s.inner t.key v k2 = some v2 := hv2
    by_cases hkk : k2 = t.key
    · rw [mapInsert_pos _ _ _ _ hkk] at hv2b
      rw [hkk, ← Option.some_inj.mp hv2b]
      exact hfet
    · rw [mapInsert_neg _ _ _ _ hkk] at hv2b
      exact inv.inner_fetched k2 v2 hv2b
  · intro m t2 hm hc
    rcases getElem?_set_cases hm with ⟨rfl, rfl⟩ | ⟨hne, hold⟩
    · exact absurd hc (by simp)
    · obtain ⟨c1, c2, c3⟩ := inv.computing_state m t2 hold hc
      have hk2ne : t2.key ≠ t.key := by
        intro he
        have hlive2 : t2.pc.isLive = true := by rw [hc]; rfl
        exact hne (inv.unique_live m i t2 t hold hthread he hlive2 hlivet)
      refine ⟨c1, c2, ?_⟩
      simp only [mapInsert]
      rw [if_neg hk2ne]
      exact c3
  · intro m t2 v2 hm hp
    rcases getElem?_set_cases hm with ⟨rfl, rfl⟩ | ⟨hne, hold⟩
    · exact absurd hp (by simp)
    · obtain ⟨p1, p2⟩ := inv.publishing_state m t2 v2 hold hp
      have hk2ne : t2.key ≠ t.key := by
        intro he
        have hlive2 : t2.pc.isLive = true := by rw [hp]; rfl
        exact hne (inv.unique_live m i t2 t hold hthread he hlive2 hlivet)
      refine ⟨p1, ?_⟩
      simp only [mapInsert]
      rw [if_neg hk2ne]
      exact p2
  · intro m t2 v2 hm hd
    rcases getElem?_set_cases hm with ⟨rfl, rfl⟩ | ⟨hne, hold⟩
    · have hv2 : v2 = v := by
        have := hd
        simp only [PC.done.injEq] at this
        exact this.symm
      subst hv2
      exact hfet
    · exact inv.done_state m t2 v2 hold hd

/-- Every atomic step of `get_or_insert_with` preserves the invariant. -/
theorem cacheStep_inv [DecidableEq K] {s s2 : CState K V} (inv : CacheInv s)
    (h : CacheStep s s2) : CacheInv s2 := by
  obtain ⟨i, rfl⟩ := h
  cases hthread : s.threads[i]? with
  | none =>
    simpa only [stepAt, hthread] using inv
  | some t =>
    cases hpc : t.pc with
    | start =>
      cases hin : s.inner t.key with
      | some v =>
        have hnew := cacheInv_threads_congr inv { t with pc := .done v }
          hthread rfl (by simp) (by simp)
          (fun v2 hv2 => by
            have hv2b : v2 = v := by
              simp only [PC.done.injEq] at hv2
              exact hv2.symm
            subst hv2b
            exact inv.inner_fetched t.key v2 hin)
        simpa only [stepAt, hthread, stepCall, hpc, hin] using hnew
      | none =>
        cases hcalled : s.called t.key with
        | true =>
          have hnew := cacheInv_threads_congr inv { t with pc := .spinning }
            hthread rfl (by simp) (by simp) (by simp)
          simpa only [stepAt, hthread, stepCall, hpc, hin, hcalled, if_pos] using hnew
        | false =>
          have hnew := cacheInv_claim inv hthread hin hcalled
          simpa only [stepAt, hthread, stepCall, hpc, hin, hcalled,
            Bool.false_eq_true, if_false] using hnew
    | spinning =>
      cases hin : s.inner t.key with
      | some v =>
        have hnew := cacheInv_threads_congr inv { t with pc := .done v }
          hthread rfl (by simp) (by simp)
          (fun v2 hv2 => by
            have hv2b : v2 = v := by
              simp only [PC.done.injEq] at hv2
              exact hv2.symm
            subst hv2b
            exact inv.inner_fetched t.key v2 hin)
        simpa only [stepAt, hthread, stepCall, hpc, hin] using hnew
      | none =>
        have hnew := cacheInv_threads_congr inv t hthread
          (by rw [hpc]; rfl) (by rw [hpc]; simp) (by rw [hpc]; simp)
          (fun v2 hv2 => absurd (hpc.symm.trans hv2) (by simp))
        simpa only [stepAt, hthread, stepCall, hpc, hin] using hnew
    | computing =>
      have hnew := cacheInv_invoke inv hthread hpc
      simpa only [stepAt, hthread, stepCall, hpc] using hnew
    | publishing v =>
      have hnew := cacheInv_publish inv hthread hpc
      simpa only [stepAt, hthread, stepCall, hpc] using hnew
    | done v =>
      have hnew := cacheInv_threads_congr inv { t with pc := .done v }
        hthread rfl (by simp) (by simp)
        (fun v2 hv2 => by
          have hv2b : v2 = v := by
            simp only [PC.done.injEq] at hv2
            exact hv2.symm
          subst hv2b
          exact inv.done_state i t v2 hthread hpc)
      simpa only [stepAt, hthread, stepCall, hpc] using hnew

/-- Every reachable state of the cache satisfies the invariant. -/
theorem cacheReach_inv [DecidableEq K] {calls : List (K × (K → V))} {s : CState K V}
    (h : CacheReach calls s) : CacheInv s := by
  induction h with
  | refl => exact cacheInit_inv calls
  | tail _ hstep ih => exact cacheStep_inv ih hstep

/-- Reduction of `stepAt` on the cache-hit branch of the entry match. -/
theorem stepAt_hit [DecidableEq K] {s : CState K V} {j : Nat} {t : ThreadCall K V} {v : V}
    (hj : s.threads[j]? = some t) (hpc : t.pc = .start) (hv : s.inner t.key = some v) :
    stepAt s j = { s with threads := s.threads.set j { t with pc := .done v } } := by
  simp only [stepAt, hj, stepCall, hpc, hv]

/-- Reduction of `stepAt` on the branch that wins the `called_map` claim. -/
theorem stepAt_claim [DecidableEq K] {s : CState K V} {j : Nat} {t : ThreadCall K V}
    (hj : s.threads[j]? = some t) (hpc : t.pc = .start) (hin : s.inner t.key = none)
    (hc : s.called t.key = false) :
    stepAt s j = { s with called := calledInsert s.called t.key,
                          threads := s.threads.set j { t with pc := .computing } } := by
  simp only [stepAt, hj, stepCall, hpc, hin, hc, Bool.false_eq_true, if_false]

/-- Reduction of `stepAt` on the closure invocation (runs outside all locks). -/
theorem stepAt_invoke [DecidableEq K] {s : CState K V} {j : Nat} {t : ThreadCall K V}
    (hj : s.threads[j]? = some t) (hpc : t.pc = .computing) :
    stepAt s j = { s with
      invocations := bump s.invocations t.key,
      fetched := mapInsert s.fetched t.key (t.f t.key),
      threads := s.threads.set j { t with pc := .publishing (t.f t.key) } } := by
  simp only [stepAt, hj, stepCall, hpc]

/-- Reduction of `stepAt` on the final `inner.insert` publish. -/
theorem stepAt_publish [DecidableEq K] {s : CState K V} {j : Nat} {t : ThreadCall K V}
    {v : V} (hj : s.threads[j]? = some t) (hpc : t.pc = .publishing v) :
    stepAt s j = { s with inner := mapInsert s.inner t.key v,
                          threads := s.threads.set j { t with pc := .done v } } := by
  simp only [stepAt, hj, stepCall, hpc]

/-- Concrete closure used in witness scenarios. -/
def f0 : Nat → Nat := fun k => k + 10

/-- Second concrete closure used in witness scenarios. -/
def f1 : Nat → Nat := fun k => k + 20

/-- Two concurrent calls, for keys 0 and 1. -/
def calls1 : List (Nat × (Nat → Nat)) := [(0, f0), (1, f1)]

/-- State in which thread 0 has claimed key 0 and is running its closure. -/
def sA : CState Nat Nat := stepAt (cacheInit calls1) 0

/-- State in which thread 0 has computed and published its value for key 0. -/
def sDone : CState Nat Nat := stepAt (stepAt sA 0) 0

theorem reach_sA : CacheReach calls1 sA :=
  Relation.ReflTransGen.single ⟨0, rfl⟩

theorem reach_sDone : CacheReach calls1 sDone :=
  (reach_sA.tail ⟨0, rfl⟩).tail ⟨0, rfl⟩

/-- C1: for every key, over the lifetime of the cache, the compute closure is
invoked at most once per key and at most one invocation is live at a time
(at most one thread holds the claim); any caller that has returned for the
key did so after exactly one invocation, with a value derived from that
recorded result of that single invocation. -/
theorem cache_single_invocation_per_key [DecidableEq K]
    {calls : List (K × (K → V))} {s : CState K V} (h : CacheReach calls s) (k : K) :
    s.invocations k ≤ 1 ∧
    (∀ (m n : Nat) (tm tn : ThreadCall K V), s.threads[m]? = some tm →
      s.threads[n]? = some tn → tm.key = k → tn.key = k →
      tm.pc.isLive = true → tn.pc.isLive = true → m = n) ∧
    (∀ (m : Nat) (t : ThreadCall K V) (v : V), s.threads[m]? = some t → t.key = k →
      t.pc = .done v → s.fetched k = some v ∧ s.invocations k = 1) := by
  have inv := cacheReach_inv h
  refine ⟨inv.invocations_le_one k, ?_, ?_⟩
  · intro m n tm tn hm hn hkm hkn hlm hln
    exact inv.unique_live m n tm tn hm hn (hkm.trans hkn.symm) hlm hln
  · intro m t v hm hkm hd
    have hfet := inv.done_state m t v hm hd
    rw [hkm] at hfet
    refine ⟨hfet, ?_⟩
    have hne : s.invocations k ≠ 0 := by
      intro hz
      rw [(inv.invocations_fetched k).mp hz] at hfet
      exact absurd hfet (by simp)
    have hle := inv.invocations_le_one k
    omega

/-- Witness for C1 at a concrete two-thread run in which thread 0 has
completed its call for key 0. -/
theorem cache_single_invocation_per_key_witness :
    sDone.invocations 0 ≤ 1 ∧
    (∀ (m n : Nat) (tm tn : ThreadCall Nat Nat), sDone.threads[m]? = some tm →
      sDone.threads[n]? = some tn → tm.key = 0 → tn.key = 0 →
      tm.pc.isLive = true → tn.pc.isLive = true → m = n) ∧
    (∀ (m : Nat) (t : ThreadCall Nat Nat) (v : Nat), sDone.threads[m]? = some t →
      t.key = 0 → t.pc = .done v → sDone.fetched 0 = some v ∧ sDone.invocations 0 = 1) :=
  cache_single_invocation_per_key reach_sDone 0

/-- C2: while one thread is inside its compute closure for key A, a call for a
different key B (either already cached or not yet claimed) runs to completion
through steps of the calling thread alone: the computing thread takes no step
and is left untouched, i.e. the call for B never waits for the computation of A.
The schedule built is also a run of the whole system. -/
theorem cache_cross_key_independence [DecidableEq K]
    {calls : List (K × (K → V))} {s : CState K V} (h : CacheReach calls s)
    {i j : Nat} {ti tj : ThreadCall K V} (hij : i ≠ j)
    (hi : s.threads[i]? = some ti) (hcomp : ti.pc = .computing)
    (hj : s.threads[j]? = some tj) (hstart : tj.pc = .start)
    (hkey : tj.key ≠ ti.key)
    (hready : s.called tj.key = false ∨ ∃ v, s.inner tj.key = some v) :
    ∃ s2 : CState K V,
      Relation.ReflTransGen (fun a b => b = stepAt a j) s s2 ∧
      (∃ v, s2.threads[j]? = some { tj with pc := .done v }) ∧
      s2.threads[i]? = some ti ∧ CacheReach calls s2 := by
  have hjlt : j < s.threads.length := by
    rcases List.getElem?_eq_some.mp hj with ⟨hlt, _⟩
    exact hlt
  rcases hready with hcalled | ⟨v, hv⟩
  · have hinner : s.inner tj.key = none :=
      ((cacheReach_inv h).fresh_key tj.key hcalled).2.1
    have e1 := stepAt_claim hj hstart hinner hcalled
    have hlen1 : (stepAt s j).threads.length = s.threads.length := by
      rw [e1]
      exact List.length_set s.threads j _
    have hj1 : (stepAt s j).threads[j]? = some { tj with pc := .computing } := by
      rw [e1]
      exact List.getElem?_set_self hjlt
    have hi1 : (stepAt s j).threads[i]? = some ti := by
      rw [e1]
      show (s.threads.set j _)[i]? = some ti
      rw [List.getElem?_set_ne hij.symm]
      exact hi
    have e2 := stepAt_invoke hj1 rfl
    have hlen2 : (stepAt (stepAt s j) j).threads.length = s.threads.length := by
      rw [e2]
      show ((stepAt s j).threads.set j _).length = s.threads.length
      rw [List.length_set]
      exact hlen1
    have hj2 : (stepAt (stepAt s j) j).threads[j]? =
        some { tj with pc := .publishing (tj.f tj.key) } := by
      rw [e2]
      exact List.getElem?_set_self (by rw [hlen1]; exact hjlt)
    have hi2 : (stepAt (stepAt s j) j).threads[i]? = some ti := by
      rw [e2]
      show ((stepAt s j).threads.set j _)[i]? = some ti
      rw [List.getElem?_set_ne hij.symm]
      exact hi1
    have e3 := stepAt_publish hj2 rfl
    refine ⟨stepAt (stepAt (stepAt s j) j) j,
      Relation.ReflTransGen.tail
        (Relation.ReflTransGen.tail (Relation.ReflTransGen.single rfl) rfl) rfl,
      ⟨tj.f tj.key, ?_⟩, ?_, ?_⟩
    · rw [e3]
      exact List.getElem?_set_self (by rw [hlen2]; exact hjlt)
    · rw [e3]
      show ((stepAt (stepAt s j) j).threads.set j _)[i]? = some ti
      rw [List.getElem?_set_ne hij.symm]
      exact hi2
    · exact ((h.tail ⟨j, rfl⟩).tail ⟨j, rfl⟩).tail ⟨j, rfl⟩
  · have e1 := stepAt_hit hj hstart hv
    refine ⟨stepAt s j, Relation.ReflTransGen.single rfl, ⟨v, ?_⟩, ?_, h.tail ⟨j, rfl⟩⟩
    · rw [e1]
      exact List.getElem?_set_self hjlt
    · rw [e1]
      show (s.threads.set j _)[i]? = some ti
      rw [List.getElem?_set_ne hij.symm]
      exact hi

/-- Witness for C2: thread 0 is inside its closure for key 0; the call for key
1 runs to completion via its own steps only. -/
theorem cache_cross_key_independence_witness :
    ∃ s2 : CState Nat Nat,
      Relation.ReflTransGen (fun a b => b = stepAt a 1) sA s2 ∧
      (∃ v, s2.threads[1]? = some { key := 1, f := f1, pc := .done v }) ∧
      s2.threads[0]? = some { key := 0, f := f0, pc := .computing } ∧
      CacheReach calls1 s2 :=
  @cache_cross_key_independence Nat Nat instDecidableEqNat calls1 sA reach_sA 0 1
    { key := 0, f := f0, pc := .computing } { key := 1, f := f1, pc := .start }
    (by decide) rfl rfl rfl rfl (by decide) (Or.inl rfl)

/-- C3: a caller that has returned from `get_or_insert_with` got exactly the
value the single closure invocation for its key produced (the ghost `fetched`
field records the return value of the closure at invocation time), and the copy the
cache keeps in `inner` has the same content; callers receive values, not
references into the cache, so the cache content stays equal to the invocation
result no matter what callers do with their returned copies. -/
theorem cache_returns_computed_value [DecidableEq K]
    {calls : List (K × (K → V))} {s : CState K V} (h : CacheReach calls s)
    {m : Nat} {t : ThreadCall K V} {v : V} (hm : s.threads[m]? = some t)
    (hd : t.pc = .done v) :
    s.fetched t.key = some v ∧ ∀ w, s.inner t.key = some w → w = v := by
  have inv := cacheReach_inv h
  have hfet := inv.done_state m t v hm hd
  refine ⟨hfet, ?_⟩
  intro w hw
  have := inv.inner_fetched t.key w hw
  rw [hfet] at this
  exact (Option.some_inj.mp this).symm

/-- Witness for C3 at the completed run of thread 0: the returned value 10 is
the recorded closure result and the cache content for key 0. -/
theorem cache_returns_computed_value_witness :
    sDone.fetched 0 = some 10 ∧ ∀ w, sDone.inner 0 = some w → w = 10 :=
  @cache_returns_computed_value Nat Nat instDecidableEqNat calls1 sDone reach_sDone 0
    { key := 0, f := f0, pc := .done 10 } 10 rfl rfl

/-- C10: when the key already has a committed result, the step of
`get_or_insert_with` resolving the call is a pure read of the occupied entry:
the closure is not invoked (ghost invocation counter unchanged), both maps and
the ghost result are untouched, the caller goes straight to `done` with the
cached value, and no other thread is affected. -/
theorem cache_hit_path_pure_read [DecidableEq K] (s : CState K V) (i : Nat)
    (t : ThreadCall K V) (v : V) (hm : s.threads[i]? = some t)
    (hpc : t.pc = .start) (hhit : s.inner t.key = some v) :
    (stepAt s i).inner = s.inner ∧ (stepAt s i).called = s.called ∧
    (stepAt s i).invocations = s.invocations ∧ (stepAt s i).fetched = s.fetched ∧
    (stepAt s i).threads[i]? = some { t with pc := .done v } ∧
    ∀ m, m ≠ i → (stepAt s i).threads[m]? = s.threads[m]? := by
  have e1 := stepAt_hit hm hpc hhit
  rw [e1]
  refine ⟨rfl, rfl, rfl, rfl, ?_, ?_⟩
  · have hilt : i < s.threads.length := by
      rcases List.getElem?_eq_some.mp hm with ⟨hlt, _⟩
      exact hlt
    exact List.getElem?_set_self hilt
  · intro m hmi
    show (s.threads.set i _)[m]? = s.threads[m]?
    rw [List.getElem?_set_ne (fun he => hmi he.symm)]

/-- Three calls: two for key 0 (threads 0 and 2) and one for key 1. -/
def calls2 : List (Nat × (Nat → Nat)) := [(0, f0), (1, f1), (0, f1)]

/-- State where thread 0 has completed for key 0 (so key 0 is cached) and
thread 2, also asking for key 0, has not stepped yet. -/
def sHit : CState Nat Nat := stepAt (stepAt (stepAt (cacheInit calls2) 0) 0) 0

/-- Witness for C10: with key 0 already cached (state after thread 0
published), a fresh call for key 0 resolves in one pure-read step. -/
theorem cache_hit_path_pure_read_witness :
    (stepAt sHit 2).inner = sHit.inner ∧ (stepAt sHit 2).called = sHit.called ∧
    (stepAt sHit 2).invocations = sHit.invocations ∧
    (stepAt sHit 2).fetched = sHit.fetched ∧
    (stepAt sHit 2).threads[2]? = some { key := 0, f := f1, pc := .done 10 } ∧
    ∀ m, m ≠ 2 → (stepAt sHit 2).threads[m]? = sHit.threads[m]? :=
  cache_hit_path_pure_read sHit 2 { key := 0, f := f1, pc := .start } 10 rfl rfl rfl

end MemoCache

namespace WorkerPool

/-- State of the loop of one worker (the closure spawned by `Worker::new`).
`waiting` is blocked in `receiver.recv()`; `got j` holds a received job before
`pool_inner.start_job()`; `running j` is after the increment, inside
`(job.0)()`; `finished j` is after the job body returned, before
`pool_inner.finish_job()`; `exited` means `recv` returned `Err` (channel
closed and empty) and the loop ended; `panicked j` means the job body
panicked, killing the thread between the increment and the decrement. -/
inductive WState where
  | waiting
  | got (j : Nat)
  | running (j : Nat)
  | finished (j : Nat)
  | exited
  | panicked (j : Nat)
deriving DecidableEq, Repr

/-- Whether the worker is inside the `start_job`/`finish_job` bracket of a
job that has not panicked. -/
def WState.isExecuting : WState → Bool
  | .running _ => true
  | .finished _ => true
  | _ => false

/-- Whether the thread of this worker died in a job panic. -/
def WState.isPanicked : WState → Bool
  | .panicked _ => true
  | _ => false

/-- Job id currently owned by the worker (received but not yet finished). -/
def WState.heldJob : WState → Option Nat
  | .got j => some j
  | .running j => some j
  | .finished j => some j
  | _ => none

/-- Global state of the thread pool: the queue of the crossbeam channel, whether
the single `Sender` is still alive (`job_sender: Option<Sender<Job>>`), the
`job_count` mutex content, the workers, the ids of jobs whose bodies ran to
completion, and a ghost log of every id ever enqueued. -/
structure PState where
  queue : List Nat
  senderOpen : Bool
  jobCount : Nat
  workers : List WState
  executedJobs : List Nat
  enqueuedEver : List Nat
deriving DecidableEq, Repr

/-- Number of workers inside the `start_job`/`finish_job` bracket. -/
def executingCount (s : PState) : Nat :=
  s.workers.countP WState.isExecuting

/-- Number of workers whose thread died in a job panic. -/
def panickedCount (s : PState) : Nat :=
  s.workers.countP WState.isPanicked

/-- The body of `ThreadPool::execute`: `if let Some(ref sender) = self.job_sender
{ sender.send(job).unwrap() }` — enqueue when the sender is alive, silently do
nothing otherwise. -/
def executeJob (s : PState) (j : Nat) : PState :=
  if s.senderOpen then
    { s with queue := s.queue ++ [j], enqueuedEver := s.enqueuedEver ++ [j] }
  else
    s

/-- Interleaved atomic steps of the pool.  `panics j = true` means the body of
job `j` panics when run.  Worker steps follow the loop in `Worker::new`:
`recv` delivers the head of the queue to a waiting worker; `recvClosed` lets
`recv` return `Err` once the channel is closed and empty, ending the loop;
`startJob` is `ThreadPoolInner::start_job` (`*count += 1`); `runOk` is the job
body returning normally; `runPanic` is the job body panicking (no
`finish_job` ever runs); `finishJob` is `ThreadPoolInner::finish_job`
(`*count -= 1`).  `execute` is any producer calling `ThreadPool::execute`;
`closeSender` is the first statement of `ThreadPool::drop`
(`self.job_sender = None`), closing the channel. -/
inductive PoolStep (panics : Nat → Bool) : PState → PState → Prop where
  | recv (s : PState) (i j : Nat) (rest : List Nat)
      (hw : s.workers[i]? = some .waiting) (hq : s.queue = j :: rest) :
      PoolStep panics s { s with queue := rest, workers := s.workers.set i (.got j) }
  | recvClosed (s : PState) (i : Nat) (hw : s.workers[i]? = some .waiting)
      (hq : s.queue = []) (hs : s.senderOpen = false) :
      PoolStep panics s { s with workers := s.workers.set i .exited }
  | startJob (s : PState) (i j : Nat) (hw : s.workers[i]? = some (.got j)) :
      PoolStep panics s
        { s with workers := s.workers.set i (.running j), jobCount := s.jobCount + 1 }
  | runOk (s : PState) (i j : Nat) (hw : s.workers[i]? = some (.running j))
      (hp : panics j = false) :
      PoolStep panics s
        { s with workers := s.workers.set i (.finished j),
                 executedJobs := s.executedJobs ++ [j] }
  | runPanic (s : PState) (i j : Nat) (hw : s.workers[i]? = some (.running j))
      (hp : panics j = true) :
      PoolStep panics s { s with workers := s.workers.set i (.panicked j) }
  | finishJob (s : PState) (i j : Nat) (hw : s.workers[i]? = some (.finished j)) :
      PoolStep panics s
        { s with workers := s.workers.set i .waiting, jobCount := s.jobCount - 1 }
  | execute (s : PState) (j : Nat) : PoolStep panics s (executeJob s j)
  | closeSender (s : PState) (hs : s.senderOpen = true) :
      PoolStep panics s { s with senderOpen := false }

/-- Pool state right after `ThreadPool::new(size)` succeeded: empty channel,
live sender, zero `job_count`, `size` workers blocked in `recv`. -/
def poolInit (size : Nat) : PState where
  queue := []
  senderOpen := true
  jobCount := 0
  workers := List.replicate size .waiting
  executedJobs := []
  enqueuedEver := []

/-- The body of `ThreadPool::new`: `assert!(size > 0)` then spawn `size`
workers.  The assertion failure (panic) is modelled as `Except.error`. -/
def poolNew (size : Nat) : Except Unit PState :=
  if size = 0 then .error () else .ok (poolInit size)

/-- States reachable from a fresh pool of the given size. -/
def PoolReach (panics : Nat → Bool) (size : Nat) (s : PState) : Prop :=
  Relation.ReflTransGen (PoolStep panics) (poolInit size) s

/-- The exit condition of `ThreadPoolInner::wait_empty`, the body of
`ThreadPool::join`: the loop `while *count > 0 { ... wait ... }` returns
exactly when the observed `job_count` is zero. -/
def joinReturns (s : PState) : Prop :=
  s.jobCount = 0

/-- Outcome of the join loop in `ThreadPool::drop`, which joins each worker
in order and `unwrap`s the result: `none` while some worker thread is still
alive (drop blocks), `some (.error ())` when the first non-exited worker it
joins had panicked (the `unwrap` re-raises), `some (.ok ())` when every
worker exited normally. -/
def dropOutcome : List WState → Option (Except Unit Unit)
  | [] => some (.ok ())
  | .exited :: rest => dropOutcome rest
  | .panicked _ :: _ => some (.error ())
  | _ => none

/-- Drop has returned normally: channel closed, every worker joined after
exiting its loop. -/
def DropReturned (s : PState) : Prop :=
  s.senderOpen = false ∧ ∀ w ∈ s.workers, w = WState.exited

/-- Exchange rule for `countP` across `set`, stated additively. -/
theorem countP_set_exchange {α : Type} {l : List α} {i : Nat} {a : α} (b : α)
    (h : l[i]? = some a) (p : α → Bool) :
    (l.set i b).countP p + (if p a then 1 else 0) =
      l.countP p + (if p b then 1 else 0) := by
  rcases List.getElem?_eq_some.mp h with ⟨hlt, hget⟩
  have hset := List.countP_set p l i b hlt
  rw [hget] at hset
  have hpos : p a = true → 0 < l.countP p := by
    intro hpa
    exact List.countP_pos_iff.mpr ⟨a, List.mem_iff_getElem?.mpr ⟨i, h⟩, hpa⟩
  by_cases hpa : p a = true
  · have := hpos hpa
    rw [hset, if_pos hpa]
    omega
  · have hfa : p a = false := Bool.eq_false_iff.mpr hpa
    rw [hset, hfa]
    simp

/-- Membership survives a `set` at a position holding a different value. -/
theorem mem_set_of_ne {α : Type} {l : List α} {i : Nat} {a w : α} (b : α)
    (hw : w ∈ l) (hi : l[i]? = some a) (hne : w ≠ a) : w ∈ l.set i b := by
  rcases List.mem_iff_getElem?.mp hw with ⟨m, hm⟩
  have hmi : m ≠ i := by
    intro he
    subst he
    rw [hm] at hi
    exact hne (Option.some_inj.mp hi)
  exact List.mem_iff_getElem?.mpr ⟨m, by rw [List.getElem?_set_ne (fun he => hmi he.symm)]; exact hm⟩

/-- Inductive invariant of the pool transition system. -/
structure PoolInv (s : PState) : Prop where
  has_worker : s.workers ≠ []
  count_eq : s.jobCount = executingCount s + panickedCount s
  enq_split : ∀ j, j ∈ s.enqueuedEver → j ∈ s.queue ∨
    (∃ w ∈ s.workers, w.heldJob = some j) ∨ j ∈ s.executedJobs ∨
    WState.panicked j ∈ s.workers
  queue_sub : ∀ j, j ∈ s.queue → j ∈ s.enqueuedEver
  held_sub : ∀ j, ∀ w ∈ s.workers, w.heldJob = some j → j ∈ s.enqueuedEver
  exec_sub : ∀ j, j ∈ s.executedJobs → j ∈ s.enqueuedEver
  panic_sub : ∀ j, WState.panicked j ∈ s.workers → j ∈ s.enqueuedEver
  finished_executed : ∀ (i j : Nat), s.workers[i]? = some (.finished j) →
    j ∈ s.executedJobs
  open_no_exited : s.senderOpen = true → ∀ w ∈ s.workers, w ≠ WState.exited
  closed_exited_empty : s.senderOpen = false →
    (∀ w ∈ s.workers, w = WState.exited) → s.queue = []

/-- A fresh pool with at least one worker satisfies the invariant. -/
theorem poolInit_inv {size : Nat} (hs : 0 < size) : PoolInv (poolInit size) := by
  have hwk : ∀ w ∈ (poolInit size).workers, w = WState.waiting := by
    intro w hw
    exact List.eq_of_mem_replicate hw
  refine ⟨?_, ?_, ?_, ?_, ?_, ?_, ?_, ?_, ?_, ?_⟩
  · have hlen : (poolInit size).workers.length = size := by
      simp [poolInit]
    intro he
    rw [he] at hlen
    simp only [List.length_nil] at hlen
    omega
  · have h1 : executingCount (poolInit size) = 0 :=
      List.countP_eq_zero.mpr fun a ha => by
        rw [List.eq_of_mem_replicate ha]
        simp [WState.isExecuting]
    have h2 : panickedCount (poolInit size) = 0 :=
      List.countP_eq_zero.mpr fun a ha => by
        rw [List.eq_of_mem_replicate ha]
        simp [WState.isPanicked]
    rw [h1, h2]
    rfl
  · intro j hj
    exact absurd hj (by simp [poolInit])
  · intro j hj
    exact absurd hj (by simp [poolInit])
  · intro j w hw hj
    rw [hwk w hw] at hj
    exact absurd hj (by simp [WState.heldJob])
  · intro j hj
    exact absurd hj (by simp [poolInit])
  · intro j hj
    have := hwk _ hj
    exact absurd this (by simp)
  · intro i j hij
    have := hwk _ (List.mem_iff_getElem?.mpr ⟨i, hij⟩)
    exact absurd this (by simp)
  · intro _ w hw
    rw [hwk w hw]
    simp
  · intro hopen
    exact absurd hopen (by simp [poolInit])

/-- Setting an element never empties a list. -/
theorem set_ne_nil {α : Type} {l : List α} (h : l ≠ []) (i : Nat) (b : α) :
    l.set i b ≠ [] := by
  cases l with
  | nil => exact absurd rfl h
  | cons x xs => cases i <;> simp

/-- Every pool step preserves the invariant. -/
theorem poolStep_inv {panics : Nat → Bool} {s s2 : PState} (inv : PoolInv s)
    (h : PoolStep panics s s2) : PoolInv s2 := by
  cases h with
  | recv i j rest hw hq =>
    have hilt : i < s.workers.length := (List.getElem?_eq_some.mp hw).1
    refine ⟨set_ne_nil inv.has_worker i _, ?_, ?_, ?_, ?_, inv.exec_sub, ?_, ?_, ?_, ?_⟩
    · have e1 := countP_set_exchange (WState.got j) hw WState.isExecuting
      have e2 := countP_set_exchange (WState.got j) hw WState.isPanicked
      have hc := inv.count_eq
      simp [WState.isExecuting, WState.isPanicked] at e1 e2
      simp only [executingCount, panickedCount] at hc ⊢
      omega
    · intro j2 hj2
      rcases inv.enq_split j2 hj2 with hq2 | ⟨w, hw2, hheld⟩ | hex | hpan
      · rw [hq] at hq2
        rcases List.mem_cons.mp hq2 with rfl | hrest
        · exact Or.inr (Or.inl ⟨WState.got j2, List.mem_set s.workers i hilt _, rfl⟩)
        · exact Or.inl hrest
      · by_cases hwa : w = WState.waiting
        · rw [hwa] at hheld
          exact absurd hheld (by simp [WState.heldJob])
        · exact Or.inr (Or.inl ⟨w, mem_set_of_ne _ hw2 hw hwa, hheld⟩)
      · exact Or.inr (Or.inr (Or.inl hex))
      · exact Or.inr (Or.inr (Or.inr (mem_set_of_ne _ hpan hw (by simp))))
    · intro j2 hj2
      exact inv.queue_sub j2 (by rw [hq]; exact List.mem_cons_of_mem _ hj2)
    · intro j2 w hw2 hheld
      rcases List.mem_or_eq_of_mem_set hw2 with hold | rfl
      · exact inv.held_sub j2 w hold hheld
      · have : j2 = j := by
          simpa [WState.heldJob] using hheld.symm
        subst this
        exact inv.queue_sub j2 (by rw [hq]; exact List.mem_cons_self _ _)
    · intro j2 hpan
      rcases List.mem_or_eq_of_mem_set hpan with hold | heq
      · exact inv.panic_sub j2 hold
      · exact absurd heq (by simp)
    · intro i2 j2 hij
      rcases getElem?_set_cases hij with ⟨rfl, heq⟩ | ⟨hne, hold⟩
      · exact absurd heq (by simp)
      · exact inv.finished_executed i2 j2 hold
    · intro hopen w hw2
      rcases List.mem_or_eq_of_mem_set hw2 with hold | rfl
      · exact inv.open_no_exited hopen w hold
      · simp
    · intro _ hall
      have := hall (WState.got j) (List.mem_set s.workers i hilt _)
      exact absurd this (by simp)
  | recvClosed i hw hq hs =>
    have hilt : i < s.workers.length := (List.getElem?_eq_some.mp hw).1
    refine ⟨set_ne_nil inv.has_worker i _, ?_, ?_, inv.queue_sub, ?_, inv.exec_sub,
      ?_, ?_, ?_, ?_⟩
    · have e1 := countP_set_exchange WState.exited hw WState.isExecuting
      have e2 := countP_set_exchange WState.exited hw WState.isPanicked
      have hc := inv.count_eq
      simp [WState.isExecuting, WState.isPanicked] at e1 e2
      simp only [executingCount, panickedCount] at hc ⊢
      omega
    · intro j2 hj2
      rcases inv.enq_split j2 hj2 with hq2 | ⟨w, hw2, hheld⟩ | hex | hpan
      · exact Or.inl hq2
      · by_cases hwa : w = WState.waiting
        · rw [hwa] at hheld
          exact absurd hheld (by simp [WState.heldJob])
        · exact Or.inr (Or.inl ⟨w, mem_set_of_ne _ hw2 hw hwa, hheld⟩)
      · exact Or.inr (Or.inr (Or.inl hex))
      · exact Or.inr (Or.inr (Or.inr (mem_set_of_ne _ hpan hw (by simp))))
    · intro j2 w hw2 hheld
      rcases List.mem_or_eq_of_mem_set hw2 with hold | rfl
      · exact inv.held_sub j2 w hold hheld
      · exact absurd hheld (by simp [WState.heldJob])
    · intro j2 hpan
      rcases List.mem_or_eq_of_mem_set hpan with hold | heq
      · exact inv.panic_sub j2 hold
      · exact absurd heq (by simp)
    · intro i2 j2 hij
      rcases getElem?_set_cases hij with ⟨rfl, heq⟩ | ⟨hne, hold⟩
      · exact absurd heq (by simp)
      · exact inv.finished_executed i2 j2 hold
    · intro hopen
      rw [hs] at hopen
      exact absurd hopen (by simp)
    · intro _ _
      exact hq
  | startJob i j hw =>
    have hilt : i < s.workers.length := (List.getElem?_eq_some.mp hw).1
    have hamem : WState.got j ∈ s.workers := List.mem_iff_getElem?.mpr ⟨i, hw⟩
    refine ⟨set_ne_nil inv.has_worker i _, ?_, ?_, inv.queue_sub, ?_, inv.exec_sub,
      ?_, ?_, ?_, ?_⟩
    · have e1 := countP_set_exchange (WState.running j) hw WState.isExecuting
      have e2 := countP_set_exchange (WState.running j) hw WState.isPanicked
      have hc := inv.count_eq
      simp [WState.isExecuting, WState.isPanicked] at e1 e2
      simp only [executingCount, panickedCount] at hc ⊢
      omega
    · intro j2 hj2
      rcases inv.enq_split j2 hj2 with hq2 | ⟨w, hw2, hheld⟩ | hex | hpan
      · exact Or.inl hq2
      · by_cases hwa : w = WState.got j
        · rw [hwa] at hheld
          have : j2 = j := by simpa [WState.heldJob] using hheld.symm
          subst this
          exact Or.inr (Or.inl ⟨WState.running j2, List.mem_set s.workers i hilt _, rfl⟩)
        · exact Or.inr (Or.inl ⟨w, mem_set_of_ne _ hw2 hw hwa, hheld⟩)
      · exact Or.inr (Or.inr (Or.inl hex))
      · exact Or.inr (Or.inr (Or.inr (mem_set_of_ne _ hpan hw (by simp))))
    · intro j2 w hw2 hheld
      rcases List.mem_or_eq_of_mem_set hw2 with hold | rfl
      · exact inv.held_sub j2 w hold hheld
      · have : j2 = j := by simpa [WState.heldJob] using hheld.symm
        subst this
        exact inv.held_sub j2 (WState.got j2) hamem rfl
    · intro j2 hpan
      rcases List.mem_or_eq_of_mem_set hpan with hold | heq
      · exact inv.panic_sub j2 hold
      · exact absurd heq (by simp)
    · intro i2 j2 hij
      rcases getElem?_set_cases hij with ⟨rfl, heq⟩ | ⟨hne, hold⟩
      · exact absurd heq (by simp)
      · exact inv.finished_executed i2 j2 hold
    · intro hopen w hw2
      rcases List.mem_or_eq_of_mem_set hw2 with hold | rfl
      · exact inv.open_no_exited hopen w hold
      · simp
    · intro _ hall
      have := hall (WState.running j) (List.mem_set s.workers i hilt _)
      exact absurd this (by simp)
  | runOk i j hw hp =>
    have hilt : i < s.workers.length := (List.getElem?_eq_some.mp hw).1
    have hamem : WState.running j ∈ s.workers := List.mem_iff_getElem?.mpr ⟨i, hw⟩
    refine ⟨set_ne_nil inv.has_worker i _, ?_, ?_, ?_, ?_, ?_, ?_, ?_, ?_, ?_⟩
    · have e1 := countP_set_exchange (WState.finished j) hw WState.isExecuting
      have e2 := countP_set_exchange (WState.finished j) hw WState.isPanicked
      have hc := inv.count_eq
      simp [WState.isExecuting, WState.isPanicked] at e1 e2
      simp only [executingCount, panickedCount] at hc ⊢
      omega
    · intro j2 hj2
      rcases inv.enq_split j2 hj2 with hq2 | ⟨w, hw2, hheld⟩ | hex | hpan
      · exact Or.inl hq2
      · by_cases hwa : w = WState.running j
        · rw [hwa] at hheld
          have : j2 = j := by simpa [WState.heldJob] using hheld.symm
          subst this
          exact Or.inr (Or.inl ⟨WState.finished j2, List.mem_set s.workers i hilt _, rfl⟩)
        · exact Or.inr (Or.inl ⟨w, mem_set_of_ne _ hw2 hw hwa, hheld⟩)
      · exact Or.inr (Or.inr (Or.inl (List.mem_append.mpr (Or.inl hex))))
      · exact Or.inr (Or.inr (Or.inr (mem_set_of_ne _ hpan hw (by simp))))
    · intro j2 hj2
      exact inv.queue_sub j2 hj2
    · intro j2 w hw2 hheld
      rcases List.mem_or_eq_of_mem_set hw2 with hold | rfl
      · exact inv.held_sub j2 w hold hheld
      · have : j2 = j := by simpa [WState.heldJob] using hheld.symm
        subst this
        exact inv.held_sub j2 (WState.running j2) hamem rfl
    · intro j2 hj2
      rcases List.mem_append.mp hj2 with hold | hnew
      · exact inv.exec_sub j2 hold
      · have : j2 = j := List.mem_singleton.mp hnew
        subst this
        exact inv.held_sub j2 (WState.running j2) hamem rfl
    · intro j2 hpan
      rcases List.mem_or_eq_of_mem_set hpan with hold | heq
      · exact inv.panic_sub j2 hold
      · exact absurd heq (by simp)
    · intro i2 j2 hij
      rcases getElem?_set_cases hij with ⟨rfl, heq⟩ | ⟨hne, hold⟩
      · have : j2 = j := by
          simpa using congrArg (fun w => match w with
            | WState.finished x => x
            | _ => 0) heq
        subst this
        exact List.mem_append.mpr (Or.inr (List.mem_singleton.mpr rfl))
      · exact List.mem_append.mpr (Or.inl (inv.finished_executed i2 j2 hold))
    · intro hopen w hw2
      rcases List.mem_or_eq_of_mem_set hw2 with hold | rfl
      · exact inv.open_no_exited hopen w hold
      · simp
    · intro _ hall
      have := hall (WState.finished j) (List.mem_set s.workers i hilt _)
      exact absurd this (by simp)
  | runPanic i j hw hp =>
    have hilt : i < s.workers.length := (List.getElem?_eq_some.mp hw).1
    have hamem : WState.running j ∈ s.workers := List.mem_iff_getElem?.mpr ⟨i, hw⟩
    refine ⟨set_ne_nil inv.has_worker i _, ?_, ?_, inv.queue_sub, ?_, inv.exec_sub,
      ?_, ?_, ?_, ?_⟩
    · have e1 := countP_set_exchange (WState.panicked j) hw WState.isExecuting
      have e2 := countP_set_exchange (WState.panicked j) hw WState.isPanicked
      have hc := inv.count_eq
      simp [WState.isExecuting, WState.isPanicked] at e1 e2
      simp only [executingCount, panickedCount] at hc ⊢
      omega
    · intro j2 hj2
      rcases inv.enq_split j2 hj2 with hq2 | ⟨w, hw2, hheld⟩ | hex | hpan
      · exact Or.inl hq2
      · by_cases hwa : w = WState.running j
        · rw [hwa] at hheld
          have : j2 = j := by simpa [WState.heldJob] using hheld.symm
          subst this
          exact Or.inr (Or.inr (Or.inr (List.mem_set s.workers i hilt _)))
        · exact Or.inr (Or.inl ⟨w, mem_set_of_ne _ hw2 hw hwa, hheld⟩)
      · exact Or.inr (Or.inr (Or.inl hex))
      · exact Or.inr (Or.inr (Or.inr (mem_set_of_ne _ hpan hw (by simp))))
    · intro j2 w hw2 hheld
      rcases List.mem_or_eq_of_mem_set hw2 with hold | rfl
      · exact inv.held_sub j2 w hold hheld
      · exact absurd hheld (by simp [WState.heldJob])
    · intro j2 hpan
      rcases List.mem_or_eq_of_mem_set hpan with hold | heq
      · exact inv.panic_sub j2 hold
      · have : j2 = j := by
          simpa using congrArg (fun w => match w with
            | WState.panicked x => x
            | _ => 0) heq
        subst this
        exact inv.held_sub j2 (WState.running j2) hamem rfl
    · intro i2 j2 hij
      rcases getElem?_set_cases hij with ⟨rfl, heq⟩ | ⟨hne, hold⟩
      · exact absurd heq (by simp)
      · exact inv.finished_executed i2 j2 hold
    · intro hopen w hw2
      rcases List.mem_or_eq_of_mem_set hw2 with hold | rfl
      · exact inv.open_no_exited hopen w hold
      · simp
    · intro _ hall
      have := hall (WState.panicked j) (List.mem_set s.workers i hilt _)
      exact absurd this (by simp)
  | finishJob i j hw =>
    have hilt : i < s.workers.length := (List.getElem?_eq_some.mp hw).1
    refine ⟨set_ne_nil inv.has_worker i _, ?_, ?_, inv.queue_sub, ?_, inv.exec_sub,
      ?_, ?_, ?_, ?_⟩
    · have e1 := countP_set_exchange WState.waiting hw WState.isExecuting
      have e2 := countP_set_exchange WState.waiting hw WState.isPanicked
      have hc := inv.count_eq
      simp [WState.isExecuting, WState.isPanicked] at e1 e2
      simp only [executingCount, panickedCount] at hc ⊢
      omega
    · intro j2 hj2
      rcases inv.enq_split j2 hj2 with hq2 | ⟨w, hw2, hheld⟩ | hex | hpan
      · exact Or.inl hq2
      · by_cases hwa : w = WState.finished j
        · rw [hwa] at hheld
          have : j2 = j := by simpa [WState.heldJob] using hheld.symm
          subst this
          exact Or.inr (Or.inr (Or.inl (inv.finished_executed i j2 hw)))
        · exact Or.inr (Or.inl ⟨w, mem_set_of_ne _ hw2 hw hwa, hheld⟩)
      · exact Or.inr (Or.inr (Or.inl hex))
      · exact Or.inr (Or.inr (Or.inr (mem_set_of_ne _ hpan hw (by simp))))
    · intro j2 w hw2 hheld
      rcases List.mem_or_eq_of_mem_set hw2 with hold | rfl
      · exact inv.held_sub j2 w hold hheld
      · exact absurd hheld (by simp [WState.heldJob])
    · intro j2 hpan
      rcases List.mem_or_eq_of_mem_set hpan with hold | heq
      · exact inv.panic_sub j2 hold
      · exact absurd heq (by simp)
    · intro i2 j2 hij
      rcases getElem?_set_cases hij with ⟨rfl, heq⟩ | ⟨hne, hold⟩
      · exact absurd heq (by simp)
      · exact inv.finished_executed i2 j2 hold
    · intro hopen w hw2
      rcases List.mem_or_eq_of_mem_set hw2 with hold | rfl
      · exact inv.open_no_exited hopen w hold
      · simp
    · intro _ hall
      have := hall WState.waiting (List.mem_set s.workers i hilt _)
      exact absurd this (by simp)
  | execute j =>
    by_cases hopen : s.senderOpen = true
    · have he : executeJob s j = { s with
          queue := s.queue ++ [j],
          enqueuedEver := s.enqueuedEver ++ [j] } := by
        simp only [executeJob, if_pos hopen]
      rw [he]
      refine ⟨inv.has_worker, inv.count_eq, ?_, ?_, ?_, ?_, ?_, inv.finished_executed,
        ?_, ?_⟩
      · intro j2 hj2
        rcases List.mem_append.mp hj2 with hold | hnew
        · rcases inv.enq_split j2 hold with hq2 | hh | hex | hpan
          · exact Or.inl (List.mem_append.mpr (Or.inl hq2))
          · exact Or.inr (Or.inl hh)
          · exact Or.inr (Or.inr (Or.inl hex))
          · exact Or.inr (Or.inr (Or.inr hpan))
        · exact Or.inl (List.mem_append.mpr (Or.inr hnew))
      · intro j2 hj2
        rcases List.mem_append.mp hj2 with hold | hnew
        · exact List.mem_append.mpr (Or.inl (inv.queue_sub j2 hold))
        · exact List.mem_append.mpr (Or.inr hnew)
      · intro j2 w hw2 hheld
        exact List.mem_append.mpr (Or.inl (inv.held_sub j2 w hw2 hheld))
      · intro j2 hj2
        exact List.mem_append.mpr (Or.inl (inv.exec_sub j2 hj2))
      · intro j2 hpan
        exact List.mem_append.mpr (Or.inl (inv.panic_sub j2 hpan))
      · intro ho w hw2
        exact inv.open_no_exited ho w hw2
      · intro hc
        rw [hopen] at hc
        exact absurd hc (by simp)
    · have he : executeJob s j = s := by
        simp only [executeJob, if_neg hopen]
      rw [he]
      exact inv
  | closeSender hs =>
    refine ⟨inv.has_worker, inv.count_eq, inv.enq_split, inv.queue_sub, inv.held_sub,
      inv.exec_sub, inv.panic_sub, inv.finished_executed, ?_, ?_⟩
    · intro hopen
      exact absurd hopen (by simp)
    · intro _ hall
      cases hwks : s.workers with
      | nil => exact absurd hwks inv.has_worker
      | cons a l =>
        have hmem : a ∈ s.workers := by rw [hwks]; exact List.mem_cons_self a l
        exact absurd (hall a hmem) (inv.open_no_exited hs a hmem)

/-- Every reachable state of the pool satisfies the invariant. -/
theorem poolReach_inv {panics : Nat → Bool} {size : Nat} {s : PState}
    (hs : 0 < size) (h : PoolReach panics size s) : PoolInv s := by
  induction h with
  | refl => exact poolInit_inv hs
  | tail _ hstep ih => exact poolStep_inv ih hstep

/-- Teardown joins succeed on exactly the worker lists in which every worker
exited normally. -/
theorem dropOutcome_ok_iff (l : List WState) :
    dropOutcome l = some (Except.ok ()) ↔ ∀ w ∈ l, w = WState.exited := by
  induction l with
  | nil => simp [dropOutcome]
  | cons a rest ih =>
    cases a with
    | exited => simpa [dropOutcome] using ih
    | panicked j => simp [dropOutcome]
    | waiting => simp [dropOutcome]
    | got j => simp [dropOutcome]
    | running j => simp [dropOutcome]
    | finished j => simp [dropOutcome]

/-- Once the sender is dropped, it stays dropped and nothing is ever enqueued
again. -/
theorem poolStep_closed {panics : Nat → Bool} {s s2 : PState}
    (h : PoolStep panics s s2) (hc : s.senderOpen = false) :
    s2.senderOpen = false ∧ s2.enqueuedEver = s.enqueuedEver := by
  cases h with
  | recv i j rest hw hq => exact ⟨hc, rfl⟩
  | recvClosed i hw hq hs => exact ⟨hc, rfl⟩
  | startJob i j hw => exact ⟨hc, rfl⟩
  | runOk i j hw hp => exact ⟨hc, rfl⟩
  | runPanic i j hw hp => exact ⟨hc, rfl⟩
  | finishJob i j hw => exact ⟨hc, rfl⟩
  | execute j =>
    have he : executeJob s j = s := by
      simp [executeJob, hc]
    rw [he]
    exact ⟨hc, rfl⟩
  | closeSender hs =>
    rw [hs] at hc
    exact absurd hc (by simp)

/-- Closed-sender stability along any run. -/
theorem poolReachFrom_closed {panics : Nat → Bool} {s s2 : PState}
    (hc : s.senderOpen = false)
    (h : Relation.ReflTransGen (PoolStep panics) s s2) :
    s2.senderOpen = false ∧ s2.enqueuedEver = s.enqueuedEver := by
  induction h with
  | refl => exact ⟨hc, rfl⟩
  | tail _ hstep ih =>
    obtain ⟨h1, h2⟩ := ih
    obtain ⟨g1, g2⟩ := poolStep_closed hstep h1
    exact ⟨g1, g2.trans h2⟩

/-- A worker that panicked stays panicked: no step ever touches its slot
again (in the code, the thread is dead; `finish_job` never runs for it). -/
theorem poolStep_panicked {panics : Nat → Bool} {s s2 : PState}
    (h : PoolStep panics s s2) {i j : Nat}
    (hp : s.workers[i]? = some (WState.panicked j)) :
    s2.workers[i]? = some (WState.panicked j) := by
  have hgen : ∀ (i2 : Nat) (b : WState), s.workers[i2]? = some WState.waiting ∨
      (∃ j2, s.workers[i2]? = some (WState.got j2)) ∨
      (∃ j2, s.workers[i2]? = some (WState.running j2)) ∨
      (∃ j2, s.workers[i2]? = some (WState.finished j2)) →
      (s.workers.set i2 b)[i]? = some (WState.panicked j) := by
    intro i2 b hw
    have hne : i2 ≠ i := by
      intro he
      subst he
      rcases hw with h1 | ⟨j2, h1⟩ | ⟨j2, h1⟩ | ⟨j2, h1⟩ <;>
        (rw [hp] at h1; exact absurd (Option.some_inj.mp h1) (by simp))
    rw [List.getElem?_set_ne hne]
    exact hp
  cases h with
  | recv i2 j2 rest hw hq => exact hgen i2 _ (Or.inl hw)
  | recvClosed i2 hw hq hs => exact hgen i2 _ (Or.inl hw)
  | startJob i2 j2 hw => exact hgen i2 _ (Or.inr (Or.inl ⟨j2, hw⟩))
  | runOk i2 j2 hw hpn => exact hgen i2 _ (Or.inr (Or.inr (Or.inl ⟨j2, hw⟩)))
  | runPanic i2 j2 hw hpn => exact hgen i2 _ (Or.inr (Or.inr (Or.inl ⟨j2, hw⟩)))
  | finishJob i2 j2 hw => exact hgen i2 _ (Or.inr (Or.inr (Or.inr ⟨j2, hw⟩)))
  | execute j2 =>
    have he : (executeJob s j2).workers = s.workers := by
      by_cases ho : s.senderOpen = true
      · simp [executeJob, ho]
      · simp [executeJob, ho]
    rw [he]
    exact hp
  | closeSender hs => exact hp

/-- Panicked workers persist along any run. -/
theorem poolReachFrom_panicked {panics : Nat → Bool} {s s2 : PState} {i j : Nat}
    (h : Relation.ReflTransGen (PoolStep panics) s s2)
    (hp : s.workers[i]? = some (WState.panicked j)) :
    s2.workers[i]? = some (WState.panicked j) := by
  induction h with
  | refl => exact hp
  | tail _ hstep ih => exact poolStep_panicked hstep ih

/-- Job-body behaviour in which exactly job 5 panics. -/
def panicsOn5 : Nat → Bool := fun j => decide (j = 5)

/-- Job-body behaviour in which no job panics. -/
def noPanics : Nat → Bool := fun _ => false

/-- One-worker pool, job 5 received. -/
def pS1 : PState :=
  { queue := [5], senderOpen := true, jobCount := 0, workers := [WState.waiting],
    executedJobs := [], enqueuedEver := [5] }

/-- One-worker pool, job 5 in the hands of the worker before `start_job`. -/
def pS2 : PState :=
  { queue := [], senderOpen := true, jobCount := 0, workers := [WState.got 5],
    executedJobs := [], enqueuedEver := [5] }

/-- One-worker pool, job 5 running after `start_job` incremented the counter. -/
def pS3 : PState :=
  { queue := [], senderOpen := true, jobCount := 1, workers := [WState.running 5],
    executedJobs := [], enqueuedEver := [5] }

/-- One-worker pool after job 5 panicked: the counter increment was never
matched by a decrement. -/
def panicState : PState :=
  { queue := [], senderOpen := true, jobCount := 1, workers := [WState.panicked 5],
    executedJobs := [], enqueuedEver := [5] }

theorem panicState_reachable : PoolReach panicsOn5 1 panicState := by
  have h1 : PoolStep panicsOn5 (poolInit 1) pS1 := PoolStep.execute (poolInit 1) 5
  have h2 : PoolStep panicsOn5 pS1 pS2 := PoolStep.recv pS1 0 5 [] (by decide) (by decide)
  have h3 : PoolStep panicsOn5 pS2 pS3 := PoolStep.startJob pS2 0 5 (by decide)
  have h4 : PoolStep panicsOn5 pS3 panicState :=
    PoolStep.runPanic pS3 0 5 (by decide) (by decide)
  exact (((Relation.ReflTransGen.single h1).tail h2).tail h3).tail h4

/-- One-worker pool with job 3 enqueued. -/
def pD1 : PState :=
  { queue := [3], senderOpen := true, jobCount := 0, workers := [WState.waiting],
    executedJobs := [], enqueuedEver := [3] }

/-- Same, after `ThreadPool::drop` closed the channel without `join()`. -/
def pD2 : PState :=
  { queue := [3], senderOpen := false, jobCount := 0, workers := [WState.waiting],
    executedJobs := [], enqueuedEver := [3] }

/-- The worker received job 3 from the closed-but-nonempty channel. -/
def pD3 : PState :=
  { queue := [], senderOpen := false, jobCount := 0, workers := [WState.got 3],
    executedJobs := [], enqueuedEver := [3] }

/-- Job 3 running. -/
def pD4 : PState :=
  { queue := [], senderOpen := false, jobCount := 1, workers := [WState.running 3],
    executedJobs := [], enqueuedEver := [3] }

/-- Job 3 finished, decrement pending. -/
def pD5 : PState :=
  { queue := [], senderOpen := false, jobCount := 1, workers := [WState.finished 3],
    executedJobs := [3], enqueuedEver := [3] }

/-- Counter decremented, worker back at `recv`. -/
def pD6 : PState :=
  { queue := [], senderOpen := false, jobCount := 0, workers := [WState.waiting],
    executedJobs := [3], enqueuedEver := [3] }

/-- Channel observed closed and empty: the worker exited and drop can finish. -/
def drainState : PState :=
  { queue := [], senderOpen := false, jobCount := 0, workers := [WState.exited],
    executedJobs := [3], enqueuedEver := [3] }

theorem drainState_reachable : PoolReach noPanics 1 drainState := by
  have h1 : PoolStep noPanics (poolInit 1) pD1 := PoolStep.execute (poolInit 1) 3
  have h2 : PoolStep noPanics pD1 pD2 := PoolStep.closeSender pD1 (by decide)
  have h3 : PoolStep noPanics pD2 pD3 := PoolStep.recv pD2 0 3 [] (by decide) (by decide)
  have h4 : PoolStep noPanics pD3 pD4 := PoolStep.startJob pD3 0 3 (by decide)
  have h5 : PoolStep noPanics pD4 pD5 := PoolStep.runOk pD4 0 3 (by decide) (by decide)
  have h6 : PoolStep noPanics pD5 pD6 := PoolStep.finishJob pD5 0 3 (by decide)
  have h7 : PoolStep noPanics pD6 drainState :=
    PoolStep.recvClosed pD6 0 (by decide) (by decide) (by decide)
  exact ((((((Relation.ReflTransGen.single h1).tail h2).tail h3).tail h4).tail
    h5).tail h6).tail h7

/-- One-worker pool right after `execute(7)`, before the worker has picked the
job up: `job_count` still reads 0. -/
def joinRace : PState :=
  { queue := [7], senderOpen := true, jobCount := 0, workers := [WState.waiting],
    executedJobs := [], enqueuedEver := [7] }

/-- One-worker pool whose `ThreadPool::drop` has closed the channel before any
job was ever submitted. -/
def closedState : PState :=
  { queue := [], senderOpen := false, jobCount := 0, workers := [WState.waiting],
    executedJobs := [], enqueuedEver := [] }

theorem closedState_reachable : PoolReach noPanics 1 closedState :=
  Relation.ReflTransGen.single (PoolStep.closeSender (poolInit 1) (by decide))

/-- C4: the code contradicts the claim (and its own doc comment on `join`):
in the reachable state right after `execute(7)`, before the worker performs
`recv`, `job_count` is 0, so the loop guard of `wait_empty` fails and `join()`
returns although job 7 is still queued and was never executed. -/
theorem pool_join_misses_queued_job :
    PoolReach noPanics 1 joinRace ∧ joinReturns joinRace ∧
    7 ∈ joinRace.enqueuedEver ∧ 7 ∉ joinRace.executedJobs ∧ joinRace.queue ≠ [] := by
  refine ⟨Relation.ReflTransGen.single (PoolStep.execute (poolInit 1) 7),
    rfl, by decide, by decide, by decide⟩

/-- C5 as stated is false on the code: after job 5 panics, `job_count` still
reads 1 (the increment from `start_job` is never undone) while no job is being
executed. -/
theorem pool_counter_mismatch_after_panic :
    PoolReach panicsOn5 1 panicState ∧
    panicState.jobCount ≠ executingCount panicState :=
  ⟨panicState_reachable, by decide⟩

/-- C5 (amended): in every reachable state of a pool with at least one worker,
`job_count` equals the number of workers inside the `start_job`/`finish_job`
bracket plus the number of workers that panicked mid-job; in particular it is
a `Nat` that never counts queued-but-unstarted jobs, the decrement in
`finish_job` never underflows (the counter is at least 1 whenever some worker
is about to decrement), and in panic-free states the counter is exactly the
number of jobs currently being executed. -/
theorem pool_job_counter_accounting {panics : Nat → Bool} {size : Nat} {s : PState}
    (hsize : 0 < size) (h : PoolReach panics size s) :
    s.jobCount = executingCount s + panickedCount s ∧
    (∀ (i j : Nat), s.workers[i]? = some (WState.finished j) → 1 ≤ s.jobCount) ∧
    (panickedCount s = 0 → s.jobCount = executingCount s) := by
  have inv := poolReach_inv hsize h
  refine ⟨inv.count_eq, ?_, ?_⟩
  · intro i j hij
    have hpos : 0 < executingCount s :=
      List.countP_pos_iff.mpr ⟨WState.finished j, List.mem_iff_getElem?.mpr ⟨i, hij⟩,
        by simp [WState.isExecuting]⟩
    have hc := inv.count_eq
    omega
  · intro hz
    rw [inv.count_eq, hz]
    rfl

/-- Witness for the amended C5 at the concrete panic trace. -/
theorem pool_job_counter_accounting_witness :
    panicState.jobCount = executingCount panicState + panickedCount panicState ∧
    (∀ (i j : Nat), panicState.workers[i]? = some (WState.finished j) →
      1 ≤ panicState.jobCount) ∧
    (panickedCount panicState = 0 → panicState.jobCount = executingCount panicState) :=
  pool_job_counter_accounting (by decide) panicState_reachable

/-- C6: whenever `ThreadPool::drop` has returned normally (sender closed and
every worker joined after exiting its loop), the queue has been fully drained,
every job ever submitted has run to completion, and the sequence of
`join().unwrap()` calls succeeded. -/
theorem pool_shutdown_drains {panics : Nat → Bool} {size : Nat} {s : PState}
    (hsize : 0 < size) (h : PoolReach panics size s) (hd : DropReturned s) :
    s.queue = [] ∧ (∀ j, j ∈ s.enqueuedEver → j ∈ s.executedJobs) ∧
    dropOutcome s.workers = some (Except.ok ()) := by
  have inv := poolReach_inv hsize h
  obtain ⟨hc, hall⟩ := hd
  have hqe : s.queue = [] := inv.closed_exited_empty hc hall
  refine ⟨hqe, ?_, (dropOutcome_ok_iff s.workers).mpr hall⟩
  intro j hj
  rcases inv.enq_split j hj with hq | ⟨w, hw, hheld⟩ | hex | hpan
  · rw [hqe] at hq
    exact absurd hq (by simp)
  · rw [hall w hw] at hheld
    exact absurd hheld (by simp [WState.heldJob])
  · exact hex
  · have := hall _ hpan
    exact absurd this (by simp)

/-- Witness for C6: a pool dropped without `join()` still drains its queued
job 3 before disposal completes. -/
theorem pool_shutdown_drains_witness :
    drainState.queue = [] ∧
    (∀ j, j ∈ drainState.enqueuedEver → j ∈ drainState.executedJobs) ∧
    dropOutcome drainState.workers = some (Except.ok ()) :=
  pool_shutdown_drains (by decide) drainState_reachable ⟨rfl, by decide⟩

/-- C7: once a worker panicked while running a job, it stays panicked along
every continuation of the run; the counter permanently exceeds the number of
executing jobs by its unmatched increment; and the teardown joins can never
all succeed — whenever the join loop of `ThreadPool::drop` completes, it
completes by re-raising the panic of that worker. -/
theorem pool_panic_propagates {panics : Nat → Bool} {size : Nat} {s s2 : PState}
    {i j : Nat} (hsize : 0 < size) (h : PoolReach panics size s)
    (hp : s.workers[i]? = some (WState.panicked j))
    (h2 : Relation.ReflTransGen (PoolStep panics) s s2) :
    s2.workers[i]? = some (WState.panicked j) ∧
    executingCount s2 + 1 ≤ s2.jobCount ∧
    ∀ e, dropOutcome s2.workers = some e → e = Except.error () := by
  have hp2 := poolReachFrom_panicked h2 hp
  have inv2 := poolReach_inv hsize (h.trans h2)
  have hpanpos : 0 < panickedCount s2 :=
    List.countP_pos_iff.mpr ⟨WState.panicked j, List.mem_iff_getElem?.mpr ⟨i, hp2⟩,
      by simp [WState.isPanicked]⟩
  have hc := inv2.count_eq
  refine ⟨hp2, by omega, ?_⟩
  intro e he
  cases e with
  | error a => rfl
  | ok a =>
    cases a
    have hall := (dropOutcome_ok_iff s2.workers).mp he
    have := hall _ (List.mem_iff_getElem?.mpr ⟨i, hp2⟩)
    exact absurd this (by simp)

/-- Witness for C7 at the concrete panic trace. -/
theorem pool_panic_propagates_witness :
    panicState.workers[0]? = some (WState.panicked 5) ∧
    executingCount panicState + 1 ≤ panicState.jobCount ∧
    ∀ e, dropOutcome panicState.workers = some e → e = Except.error () :=
  pool_panic_propagates (by decide) panicState_reachable (by decide)
    Relation.ReflTransGen.refl

/-- C8: `ThreadPool::new(size)` panics exactly when `size = 0`
(`assert!(size > 0)`), and otherwise returns a pool with exactly `size`
workers — never a degraded pool with zero workers. -/
theorem pool_new_size_contract (size : Nat) :
    (size = 0 → poolNew size = Except.error ()) ∧
    (0 < size → poolNew size = Except.ok (poolInit size) ∧
      (poolInit size).workers.length = size) ∧
    (∀ p, poolNew size = Except.ok p → p.workers.length = size ∧
      0 < p.workers.length) := by
  refine ⟨?_, ?_, ?_⟩
  · intro hz
    simp [poolNew, hz]
  · intro hpos
    have hne : size ≠ 0 := Nat.pos_iff_ne_zero.mp hpos
    constructor
    · simp [poolNew, hne]
    · simp [poolInit]
  · intro p hp
    by_cases hz : size = 0
    · rw [hz] at hp
      simp [poolNew] at hp
    · simp only [poolNew, if_neg hz] at hp
      have hpe : p = poolInit size := (Except.ok.injEq _ _).mp hp.symm
      subst hpe
      have hlen : (poolInit size).workers.length = size := by simp [poolInit]
      exact ⟨hlen, by omega⟩

/-- Witness for C8 at sizes 0 and 1. -/
theorem pool_new_size_contract_witness :
    poolNew 0 = Except.error () ∧ poolNew 1 = Except.ok (poolInit 1) ∧
    (poolInit 1).workers.length = 1 :=
  ⟨(pool_new_size_contract 0).1 rfl, ((pool_new_size_contract 1).2.1 (by decide)).1,
    ((pool_new_size_contract 1).2.1 (by decide)).2⟩

/-- C9: once the pool has begun shutting down (`job_sender` is `None`),
`execute` is a silent no-op: the state is unchanged, no error is surfaced
(`executeJob` in the model is total), and a job id never enqueued before is
never executed in any continuation of the run. -/
theorem pool_execute_after_close {panics : Nat → Bool} {size : Nat} {s : PState}
    {j : Nat} (hsize : 0 < size) (h : PoolReach panics size s)
    (hclosed : s.senderOpen = false) (hfresh : j ∉ s.enqueuedEver) :
    executeJob s j = s ∧
    ∀ s2, Relation.ReflTransGen (PoolStep panics) s s2 → j ∉ s2.executedJobs := by
  have he : executeJob s j = s := by
    simp [executeJob, hclosed]
  refine ⟨he, ?_⟩
  intro s2 h2 hex
  obtain ⟨hc2, henq⟩ := poolReachFrom_closed hclosed h2
  have inv2 := poolReach_inv hsize (h.trans h2)
  have := inv2.exec_sub j hex
  rw [henq] at this
  exact hfresh this

/-- Witness for C9: executing job 9 on a shut-down one-worker pool changes
nothing and job 9 never runs. -/
theorem pool_execute_after_close_witness :
    executeJob closedState 9 = closedState ∧
    ∀ s2, Relation.ReflTransGen (PoolStep noPanics) closedState s2 →
      9 ∉ s2.executedJobs :=
  pool_execute_after_close (by decide) closedState_reachable rfl (by decide)

end WorkerPool

end Rustudy
